import Mathlib

/-!
Verification of the pintos-derived file-system core: buffer cache, indexed
inode layer, free-space allocator, flat directory, and the syscall layer's
read path.  Definitions are shallow embeddings of the C sources under
src/; where only a header survives in the sources, the behaviour is
modelled from the specification, as marked in the doc comments.
-/

/-! ## Constants from the source headers -/

/-- Size in bytes of one disk sector (devices/block.h). -/
def BLOCK_SECTOR_SIZE : Nat := 512

/-- Number of direct block pointers in an on-disk inode (filesys/inode.h). -/
def INODE_DIRECT_BLOCKS : Nat := 16

/-- Number of sector pointers held by one indirect block: a whole sector of
4-byte sector numbers. -/
def PTRS_PER_SECTOR : Nat := BLOCK_SECTOR_SIZE / 4

/-- Number of disk blocks stored in the buffer cache (filesys/cache.h). -/
def CACHE_SIZE : Nat := 64

/-- Maximum size of the read-ahead queue (filesys/cache.h). -/
def RA_QUEUE_SIZE : Nat := CACHE_SIZE

/-- Maximum length of a file name component (filesys/directory.h). -/
def NAME_MAX : Nat := 14

/-- Number of entry slots in a directory (filesys/directory.h). -/
def DIR_ENTRY_MAX : Nat := 64

/-! ## C1: byte size of struct inode_disk (filesys/inode.h)

The struct is declared as
  block_sector_t start; off_t length;
  block_sector_t direct[INODE_DIRECT_BLOCKS];
  block_sector_t indirect; block_sector_t doubly_indirect;
  bool is_dir; unsigned magic; uint32_t unused[125];
with block_sector_t = uint32_t (4 bytes), off_t = int32_t (4 bytes),
bool = 1 byte, unsigned = 4 bytes on the i386 target. -/

/-- Byte widths of the fields of struct inode_disk, in declaration order:
start, length, direct[16], indirect, doubly_indirect, is_dir, magic,
unused[125]. -/
def inode_disk_field_sizes : List Nat :=
  [4, 4, INODE_DIRECT_BLOCKS * 4, 4, 4, 1, 4, 125 * 4]

/-- Total number of bytes occupied by the declared fields of struct
inode_disk (a lower bound on sizeof, which alignment can only increase). -/
def inode_disk_size : Nat := inode_disk_field_sizes.sum

/-- C1: the fields of struct inode_disk sum to 585 bytes, not the
BLOCK_SECTOR_SIZE = 512 required by the struct's own comment "Must be
exactly BLOCK_SECTOR_SIZE bytes long": the unused[125] padding was not
shrunk when the direct, indirect, doubly_indirect and is_dir fields were
added, so the structure overflows a sector by 73 bytes. -/
theorem inode_disk_not_one_sector :
    inode_disk_size = 585 ∧ inode_disk_size ≠ BLOCK_SECTOR_SIZE := by
  decide

/-! ## C10: sys_read on STDIN_FILENO (userprog/syscall.c)

The relevant fragment, with length an `unsigned`:

  if (fd == STDIN_FILENO)
    {
      while (length--)
        *(buf++) = input_getc ();
      return length;
    }

The loop body runs once per original count; the final `length--` that
stops the loop wraps the unsigned value from 0 to 2^32 - 1, and that
wrapped value is what `return length;` converts to the int result. -/

/-- Modulus of the 32-bit unsigned arithmetic of `unsigned length`. -/
def UINT32_MOD : Nat := 2 ^ 32

/-- Reinterpret a 32-bit unsigned value as a C `int` (two's complement). -/
def uintToInt (u : Nat) : Int :=
  if u < 2 ^ 31 then (u : Int) else (u : Int) - (UINT32_MOD : Int)

/-- The `while (length--) *(buf++) = input_getc ();` loop of sys_read for
fd = STDIN_FILENO.  `input k` is the k-th keyboard character delivered by
input_getc, `buf` the bytes stored so far, `k` the index of the next
character.  Each test evaluates the old value of `length` and then
decrements it in 32-bit unsigned arithmetic, so the test that sees 0
leaves `length` at 2^32 - 1. -/
def stdin_read_loop (input : Nat → Nat) (buf : List Nat) (k : Nat) :
    Nat → List Nat × Nat
  | 0 => (buf, UINT32_MOD - 1)
  | Nat.succ m => stdin_read_loop input (buf ++ [input k]) (k + 1) m

/-- The STDIN_FILENO branch of sys_read in userprog/syscall.c: run the
copy loop, then return the leftover `length` value converted to int. -/
def sys_read_stdin (input : Nat → Nat) (length : Nat) : List Nat × Int :=
  let r := stdin_read_loop input [] 0 length
  (r.1, uintToInt r.2)

theorem stdin_read_loop_eq (input : Nat → Nat) :
    ∀ (n : Nat) (buf : List Nat) (k : Nat),
      stdin_read_loop input buf k n
        = (buf ++ (List.range n).map (fun j => input (k + j)), UINT32_MOD - 1) := by
  intro n
  induction n with
  | zero => intro buf k; simp [stdin_read_loop]
  | succ m ih =>
      intro buf k
      rw [stdin_read_loop, ih, List.range_succ_eq_map]
      have hf : ((fun j => input (k + j)) ∘ Nat.succ) = fun j => input (k + 1 + j) := by
        funext j
        have hkj : k + Nat.succ j = k + 1 + j := by omega
        simp [Function.comp, hkj]
      simp [List.map_map, hf, List.append_assoc]

/-- C10: sys_read with fd = STDIN_FILENO copies exactly the requested
number of keyboard characters into the buffer, but returns -1 rather than
the number of bytes read, because the unsigned `length` has wrapped to
2^32 - 1 when the while loop exits and that value is returned as an int. -/
theorem sys_read_stdin_copies_but_returns_neg_one (input : Nat → Nat) (length : Nat) :
    (sys_read_stdin input length).1 = (List.range length).map input
    ∧ (sys_read_stdin input length).1.length = length
    ∧ (sys_read_stdin input length).2 = -1 := by
  refine ⟨?_, ?_, ?_⟩
  · simp [sys_read_stdin, stdin_read_loop_eq]
  · simp [sys_read_stdin, stdin_read_loop_eq]
  · simp only [sys_read_stdin, stdin_read_loop_eq]
    norm_num [uintToInt, UINT32_MOD]

/-! ## C2: the offset-to-sector index translation

The translation lives in filesys/inode.c, which is absent from the
sources (only inode.h survives); it is modelled from the spec's index
translation paragraph. -/

/-- Modelled from the spec: the pointer structure of one inode as the
index translation sees it (byte_to_sector in the absent filesys/inode.c).
`direct` is the array of INODE_DIRECT_BLOCKS direct pointers, `indirect`
the pointer array stored in the singly-indirect block, and `doubly` the
two-level array reached through the doubly-indirect block.  A missing
entry reads as the sentinel 0, matching the zero-means-unallocated
convention of the spec. -/
structure InodeIndex where
  direct : List Nat
  indirect : List Nat
  doubly : List (List Nat)

/-- Modelled from the spec: resolve logical sector index `i` of a file to
the physical data sector recorded in the inode's three-tier structure. -/
def index_to_sector (nd : InodeIndex) (i : Nat) : Nat :=
  if i < INODE_DIRECT_BLOCKS then nd.direct.getD i 0
  else if i < INODE_DIRECT_BLOCKS + PTRS_PER_SECTOR then
    nd.indirect.getD (i - INODE_DIRECT_BLOCKS) 0
  else
    (nd.doubly.getD ((i - INODE_DIRECT_BLOCKS - PTRS_PER_SECTOR) / PTRS_PER_SECTOR) []).getD
      ((i - INODE_DIRECT_BLOCKS - PTRS_PER_SECTOR) % PTRS_PER_SECTOR) 0

/-- Largest number of sectors a single inode can address through the
three-tier scheme: D + P + P * P. -/
def INODE_MAX_SECTORS : Nat :=
  INODE_DIRECT_BLOCKS + PTRS_PER_SECTOR + PTRS_PER_SECTOR * PTRS_PER_SECTOR

/-- C2: with D = 16 direct pointers and P = 512 / 4 = 128 pointers per
indirect block, logical sector index i resolves to direct pointer i when
i < D, to entry i - D of the singly-indirect block when D ≤ i < D + P,
and otherwise, with j = i - D - P, to entry j mod P of the indirect block
selected by entry j div P of the doubly-indirect block; the doubly
indirect level stays inside its P-entry array exactly when
i < D + P + P^2 = 16528, so a single inode addresses at most 16528
sectors. -/
theorem index_to_sector_spec (nd : InodeIndex) (i : Nat) :
    (i < INODE_DIRECT_BLOCKS → index_to_sector nd i = nd.direct.getD i 0)
    ∧ (INODE_DIRECT_BLOCKS ≤ i → i < INODE_DIRECT_BLOCKS + PTRS_PER_SECTOR →
        index_to_sector nd i = nd.indirect.getD (i - INODE_DIRECT_BLOCKS) 0)
    ∧ (INODE_DIRECT_BLOCKS + PTRS_PER_SECTOR ≤ i →
        index_to_sector nd i
          = (nd.doubly.getD ((i - INODE_DIRECT_BLOCKS - PTRS_PER_SECTOR) / PTRS_PER_SECTOR) []).getD
              ((i - INODE_DIRECT_BLOCKS - PTRS_PER_SECTOR) % PTRS_PER_SECTOR) 0)
    ∧ INODE_MAX_SECTORS = 16528
    ∧ (i < INODE_MAX_SECTORS ↔
        i < INODE_DIRECT_BLOCKS
        ∨ (INODE_DIRECT_BLOCKS ≤ i ∧ i < INODE_DIRECT_BLOCKS + PTRS_PER_SECTOR)
        ∨ (INODE_DIRECT_BLOCKS + PTRS_PER_SECTOR ≤ i
            ∧ (i - INODE_DIRECT_BLOCKS - PTRS_PER_SECTOR) / PTRS_PER_SECTOR
                < PTRS_PER_SECTOR)) := by
  refine ⟨?_, ?_, ?_, by decide, ?_⟩
  · intro h
    simp [index_to_sector, h]
  · intro h1 h2
    rw [index_to_sector, if_neg (by omega), if_pos h2]
  · intro h
    rw [index_to_sector, if_neg (by omega), if_neg (by omega)]
  · show i < INODE_MAX_SECTORS ↔ _
    have hD : INODE_DIRECT_BLOCKS = 16 := by decide
    have hP : PTRS_PER_SECTOR = 128 := by decide
    have hM : INODE_MAX_SECTORS = 16528 := by decide
    rw [hD, hP, hM]
    omega

/-- C2 witness instance: index 200 falls in the doubly-indirect region. -/
theorem index_to_sector_spec_witness :
    INODE_DIRECT_BLOCKS + PTRS_PER_SECTOR ≤ 200
    ∧ index_to_sector (InodeIndex.mk [] [] []) 200
        = (([] : List (List Nat)).getD ((200 - INODE_DIRECT_BLOCKS - PTRS_PER_SECTOR) / PTRS_PER_SECTOR) []).getD
            ((200 - INODE_DIRECT_BLOCKS - PTRS_PER_SECTOR) % PTRS_PER_SECTOR) 0 :=
  ⟨by decide, (index_to_sector_spec (InodeIndex.mk [] [] []) 200).2.2.1 (by decide)⟩

/-! ## C3: write / flush / fresh open / read round trip

file.c, inode.c and cache.c are absent from the sources (only their
headers survive), so the byte-level data path is modelled from the spec:
file_write_at places each byte, through the index translation, into the
buffer cache; cache_flush writes every dirty byte back to the device and
a fresh open then reads through an empty cache from the flushed image. -/

/-- Modelled from the spec: the physical location of byte position `p` of
a file: the data sector given by the index translation for logical sector
p / BLOCK_SECTOR_SIZE, at in-sector offset p % BLOCK_SECTOR_SIZE. -/
def place (nd : InodeIndex) (p : Nat) : Nat × Nat :=
  (index_to_sector nd (p / BLOCK_SECTOR_SIZE), p % BLOCK_SECTOR_SIZE)

/-- Modelled from the spec: the state the inode layer sees: the block
device image plus the buffer cache's dirty overlay, both addressed by
(sector, in-sector byte offset).  `none` in the cache means the byte is
not dirty in the cache. -/
structure FsState where
  disk : Nat × Nat → Nat
  cache : Nat × Nat → Option Nat

/-- Device image and cache with every byte zero. -/
def emptyFs : FsState :=
  FsState.mk (fun _ => 0) (fun _ => none)

/-- Modelled from the spec: a byte-granular cache write: update the
resident copy and mark it dirty, without blocking for the device. -/
def cacheWriteByte (fs : FsState) (loc : Nat × Nat) (b : Nat) : FsState :=
  FsState.mk fs.disk (fun l => if l = loc then some b else fs.cache l)

/-- Modelled from the spec: a byte-granular cache read: the authoritative
in-memory copy if resident and dirty, the device image otherwise. -/
def cacheReadByte (fs : FsState) (loc : Nat × Nat) : Nat :=
  (fs.cache loc).getD (fs.disk loc)

/-- Modelled from the spec: cache_flush synchronously writes every dirty
byte back to the device; composed with the process restart of the
round-trip scenario, the state continues with an empty cache over the
flushed device image. -/
def cache_flush (fs : FsState) : FsState :=
  FsState.mk (fun l => (fs.cache l).getD (fs.disk l)) (fun _ => none)

/-- Modelled from the spec: file_write_at writes the byte sequence `bs`
at byte offset `off` of the file whose index structure is `nd`, one byte
at a time through the buffer cache. -/
def file_write_at (nd : InodeIndex) (fs : FsState) (off : Nat) : List Nat → FsState
  | [] => fs
  | b :: bs => file_write_at nd (cacheWriteByte fs (place nd off) b) (off + 1) bs

/-- Modelled from the spec: file_read_at reads `len` bytes at byte offset
`off` through the buffer cache. -/
def file_read_at (nd : InodeIndex) (fs : FsState) (off len : Nat) : List Nat :=
  (List.range len).map (fun k => cacheReadByte fs (place nd (off + k)))

theorem file_write_at_cache_untouched (nd : InodeIndex) :
    ∀ (bs : List Nat) (fs : FsState) (off : Nat) (loc : Nat × Nat),
      (∀ k, k < bs.length → place nd (off + k) ≠ loc) →
      (file_write_at nd fs off bs).cache loc = fs.cache loc := by
  intro bs
  induction bs with
  | nil => intro fs off loc _; rfl
  | cons b tl ih =>
      intro fs off loc h
      rw [file_write_at, ih]
      · have h0 : place nd off ≠ loc := by
          have := h 0 (by simp)
          simpa using this
        simp [cacheWriteByte]
        intro hc
        exact absurd hc.symm h0
      · intro k hk
        have := h (k + 1) (by simpa using Nat.succ_lt_succ hk)
        have harr : off + 1 + k = off + (k + 1) := by omega
        rw [harr]
        exact this

theorem file_write_at_cache_hit (nd : InodeIndex) :
    ∀ (bs : List Nat) (fs : FsState) (off k : Nat),
      k < bs.length →
      (∀ k2, k < k2 → k2 < bs.length → place nd (off + k2) ≠ place nd (off + k)) →
      (file_write_at nd fs off bs).cache (place nd (off + k)) = some (bs.getD k 0) := by
  intro bs
  induction bs with
  | nil => intro fs off k hk _; simp at hk
  | cons b tl ih =>
      intro fs off k hk hlater
      cases k with
      | zero =>
          rw [file_write_at]
          rw [file_write_at_cache_untouched]
          · simp [cacheWriteByte]
          · intro k2 hk2 hc
            have h1 : 0 < k2 + 1 := by omega
            have h2 : k2 + 1 < (b :: tl).length := by simpa using Nat.succ_lt_succ hk2
            have harr : off + 1 + k2 = off + (k2 + 1) := by omega
            rw [harr] at hc
            have harr0 : off + 0 = off := by omega
            rw [← harr0] at hc
            exact hlater (k2 + 1) h1 h2 hc
      | succ m =>
          rw [file_write_at]
          have harr : off + (m + 1) = off + 1 + m := by omega
          rw [harr]
          have hm : m < tl.length := by simpa using Nat.lt_of_succ_lt_succ hk
          rw [ih (cacheWriteByte fs (place nd off) b) (off + 1) m hm]
          · simp
          · intro k2 hk2 hk2len hc
            have harr2 : off + 1 + k2 = off + (k2 + 1) := by omega
            have harr3 : off + 1 + m = off + (m + 1) := by omega
            rw [harr2, harr3] at hc
            exact hlater (k2 + 1) (by omega) (by simpa using Nat.succ_lt_succ hk2len) hc

/-- C3: writing any byte sequence at any offset, flushing the cache, and
reading the same range back after a fresh open returns exactly the bytes
written.  The hypothesis asks that the index translation place the
touched byte positions at pairwise distinct physical locations, which is
the spec's exclusive-ownership invariant for the sectors of one inode. -/
theorem file_roundtrip (nd : InodeIndex) (fs : FsState) (off : Nat) (bs : List Nat)
    (hinj : ∀ k1 k2, k1 < bs.length → k2 < bs.length →
      place nd (off + k1) = place nd (off + k2) → k1 = k2) :
    file_read_at nd (cache_flush (file_write_at nd fs off bs)) off bs.length = bs := by
  apply List.ext_getElem
  · simp [file_read_at]
  · intro i h1 h2
    have hi : i < bs.length := by simpa [file_read_at] using h1
    have hcache : (file_write_at nd fs off bs).cache (place nd (off + i)) = some (bs.getD i 0) := by
      apply file_write_at_cache_hit nd bs fs off i hi
      intro k2 hk2 hk2len hc
      have := hinj k2 i hk2len hi hc
      omega
    simp only [file_read_at, List.getElem_map, List.getElem_range]
    simp [cacheReadByte, cache_flush, hcache, List.getD_eq_getElem?_getD,
      List.getElem?_eq_getElem hi]

/-- C3 witness instance: three bytes written at offset 0 land at three
distinct in-sector offsets of one data sector, so they read back intact
after a flush and fresh open. -/
theorem file_roundtrip_witness :
    file_read_at (InodeIndex.mk [] [] []) (cache_flush
        (file_write_at (InodeIndex.mk [] [] []) emptyFs 0 [7, 8, 9])) 0 3
      = [7, 8, 9] := by
  have h := file_roundtrip (InodeIndex.mk [] [] []) emptyFs 0 [7, 8, 9] ?_
  · simpa using h
  · intro k1 k2 h1 h2 hc
    simp only [List.length_cons, List.length_nil] at h1 h2
    simp only [place, Prod.mk.injEq, BLOCK_SECTOR_SIZE] at hc
    omega

/-! ## C4: extension monotonicity of write_at past EOF

inode.c and file.c are absent from the sources, so the length-extension
behaviour of write_at is modelled from the spec: a write past the current
length allocates the missing sectors zero-initialized and updates the
stored length; a read beyond the stored length returns no bytes. -/

/-- Modelled from the spec: the content of one open file as the inode
layer exposes it: the stored length plus the byte at each offset. -/
structure FileContent where
  len : Nat
  data : Nat → Nat

/-- Modelled from the spec: write_at with extension: bytes `bs` land at
offsets off .. off + bs.length - 1; if the write reaches past the current
length, the stored length becomes the end of the write and the gap
between the old length and the write, lying in freshly allocated
zero-initialized sectors, holds zero bytes. -/
def file_extend_write (f : FileContent) (off : Nat) (bs : List Nat) : FileContent :=
  FileContent.mk (max f.len (off + bs.length))
    (fun p =>
      if off ≤ p ∧ p < off + bs.length then bs.getD (p - off) 0
      else if f.len ≤ p then 0
      else f.data p)

/-- Modelled from the spec: read one byte at offset `p`: bytes at or past
the stored length are not part of the file and read as nothing (zero). -/
def file_read_byte (f : FileContent) (p : Nat) : Nat :=
  if p < f.len then f.data p else 0

/-- C4: a write of `bs` at offset `off` with off + |bs| beyond the current
length leaves the stored length at exactly off + |bs|, and every byte
between the old length and `off` afterwards reads back as zero. -/
theorem file_extend_write_spec (f : FileContent) (off : Nat) (bs : List Nat)
    (hext : f.len < off + bs.length) :
    (file_extend_write f off bs).len = off + bs.length
    ∧ ∀ p, f.len ≤ p → p < off →
        file_read_byte (file_extend_write f off bs) p = 0 := by
  constructor
  · simp [file_extend_write]
    omega
  · intro p hp1 hp2
    rw [file_read_byte, if_pos]
    · rw [file_extend_write]
      simp only
      rw [if_neg (by omega), if_pos hp1]
    · simp [file_extend_write]
      omega

/-- C4 witness instance: a file of length 2 written with one byte at
offset 4 ends with length 5 and reads zero at offset 3. -/
theorem file_extend_write_spec_witness :
    (2 : Nat) < 4 + [9].length
    ∧ (file_extend_write (FileContent.mk 2 (fun _ => 7)) 4 [9]).len = 4 + [9].length
    ∧ file_read_byte (file_extend_write (FileContent.mk 2 (fun _ => 7)) 4 [9]) 3 = 0 :=
  ⟨by decide,
   (file_extend_write_spec (FileContent.mk 2 (fun _ => 7)) 4 [9] (by decide)).1,
   (file_extend_write_spec (FileContent.mk 2 (fun _ => 7)) 4 [9] (by decide)).2 3
     (by decide) (by decide)⟩

/-! ## C7: deny-write enforcement

file.c and inode.c are absent from the sources; the deny_write_cnt
discipline declared in inode.h (0: writes ok, >0: deny writes) is
modelled from the spec. -/

/-- Modelled from the spec: the in-memory inode state that the deny-write
protocol touches: the nested deny counter and the file content. -/
structure InodeMem where
  deny_write_cnt : Nat
  content : FileContent

/-- Modelled from the spec: inode_deny_write bumps the nested counter. -/
def inode_deny_write (ino : InodeMem) : InodeMem :=
  InodeMem.mk (ino.deny_write_cnt + 1) ino.content

/-- Modelled from the spec: inode_allow_write undoes one deny. -/
def inode_allow_write (ino : InodeMem) : InodeMem :=
  InodeMem.mk (ino.deny_write_cnt - 1) ino.content

/-- Modelled from the spec: inode_write_at returns the number of bytes
written together with the new inode state; while the deny counter is
positive the write is rejected: zero bytes written, state unchanged. -/
def inode_write_at (ino : InodeMem) (off : Nat) (bs : List Nat) : Nat × InodeMem :=
  if ino.deny_write_cnt ≠ 0 then (0, ino)
  else (bs.length, InodeMem.mk ino.deny_write_cnt (file_extend_write ino.content off bs))

/-- C7: deny_write and allow_write act as a nested counter; while the
counter is positive every write is rejected with zero bytes written and
the inode unchanged, and once matching allow_write calls bring it back to
zero, writes write their full byte count again. -/
theorem deny_write_enforced (ino : InodeMem) (off : Nat) (bs : List Nat) :
    (inode_deny_write ino).deny_write_cnt = ino.deny_write_cnt + 1
    ∧ (inode_allow_write (inode_deny_write ino)).deny_write_cnt = ino.deny_write_cnt
    ∧ (inode_allow_write (inode_deny_write ino)).content = ino.content
    ∧ (0 < ino.deny_write_cnt → inode_write_at ino off bs = (0, ino))
    ∧ (ino.deny_write_cnt = 0 → (inode_write_at ino off bs).1 = bs.length) := by
  refine ⟨rfl, by simp [inode_deny_write, inode_allow_write], rfl, ?_, ?_⟩
  · intro h
    rw [inode_write_at, if_pos (by omega)]
  · intro h
    rw [inode_write_at, if_neg (by omega)]

/-- C7 witness instance: with the deny counter at 1 a one-byte write is
rejected with result 0; a single allow_write returns the counter to 0. -/
theorem deny_write_enforced_witness :
    (0 : Nat) < 1
    ∧ (inode_write_at (InodeMem.mk 1 (FileContent.mk 0 (fun _ => 0))) 0 [5]).1 = 0
    ∧ (inode_allow_write (inode_deny_write
        (InodeMem.mk 0 (FileContent.mk 0 (fun _ => 0))))).deny_write_cnt = 0 :=
  ⟨by decide,
   by rw [(deny_write_enforced (InodeMem.mk 1 (FileContent.mk 0 (fun _ => 0))) 0
       [5]).2.2.2.1 (by decide)],
   (deny_write_enforced (InodeMem.mk 0 (FileContent.mk 0 (fun _ => 0))) 0 []).2.1⟩

/-! ## C5: free-map allocation

free-map.c is absent from the sources (only free-map.h survives, whose
free_map_allocate takes a count and one output sector, the start of a
contiguous run); the allocator is modelled from the spec: scan the bitmap
for `cnt` consecutive free sectors, mark them allocated atomically, or
fail leaving the bitmap unchanged. -/

/-- Modelled from the spec: do the `cnt` bits starting at `start` all
read free (false) in the bitmap? -/
def runFree (bm : Nat → Bool) (start cnt : Nat) : Bool :=
  (List.range cnt).all (fun k => !bm (start + k))

/-- Modelled from the spec: first-fit scan for a run of `cnt` free bits
that lies inside the `n`-bit bitmap, starting the search at `start`; the
fuel argument bounds the scan (it is started with fuel `n + 1`, enough to
try every start position). -/
def scanFrom (bm : Nat → Bool) (n cnt : Nat) : Nat → Nat → Option Nat
  | _, 0 => none
  | start, Nat.succ fuel =>
      if start + cnt ≤ n ∧ runFree bm start cnt = true then some start
      else scanFrom bm n cnt (start + 1) fuel

/-- Modelled from the spec: free_map_allocate over an `n`-sector device:
on success, the start of a run of `cnt` sectors that were free, together
with the bitmap with exactly those bits flipped to allocated; on failure
the unchanged bitmap. -/
def free_map_allocate (bm : Nat → Bool) (n cnt : Nat) : Option Nat × (Nat → Bool) :=
  match scanFrom bm n cnt 0 (n + 1) with
  | none => (none, bm)
  | some start =>
      (some start, fun s => if start ≤ s ∧ s < start + cnt then true else bm s)

theorem scanFrom_some (bm : Nat → Bool) (n cnt : Nat) :
    ∀ (fuel start s : Nat), scanFrom bm n cnt start fuel = some s →
      s + cnt ≤ n ∧ runFree bm s cnt = true := by
  intro fuel
  induction fuel with
  | zero => intro start s h; simp [scanFrom] at h
  | succ f ih =>
      intro start s h
      rw [scanFrom] at h
      by_cases hc : start + cnt ≤ n ∧ runFree bm start cnt = true
      · rw [if_pos hc] at h
        cases h
        exact hc
      · rw [if_neg hc] at h
        exact ih (start + 1) s h

theorem runFree_bits (bm : Nat → Bool) (start cnt : Nat)
    (h : runFree bm start cnt = true) :
    ∀ k, k < cnt → bm (start + k) = false := by
  intro k hk
  have := (List.all_eq_true.mp h) k (List.mem_range.mpr hk)
  simpa using this

theorem free_map_allocate_some_scan (bm : Nat → Bool) (n cnt start : Nat)
    (h : (free_map_allocate bm n cnt).1 = some start) :
    scanFrom bm n cnt 0 (n + 1) = some start := by
  rcases hs : scanFrom bm n cnt 0 (n + 1) with _ | s0
  · rw [free_map_allocate, hs] at h
    simp at h
  · rw [free_map_allocate, hs] at h
    simp only [Option.some.injEq] at h
    rw [h]

theorem free_map_allocate_eq_of_scan (bm : Nat → Bool) (n cnt start : Nat)
    (hs : scanFrom bm n cnt 0 (n + 1) = some start) :
    (free_map_allocate bm n cnt).2
      = fun s => if start ≤ s ∧ s < start + cnt then true else bm s := by
  rw [free_map_allocate, hs]

/-- C5: a successful free_map_allocate returns `cnt` distinct sectors
(the contiguous run start .. start + cnt - 1) that were all free, marks
exactly them allocated; a failing call returns the bitmap unchanged; and
the run of a second successful allocation performed on the resulting
bitmap is disjoint from the first run. -/
theorem free_map_allocate_spec (bm : Nat → Bool) (n cnt cnt2 : Nat) :
    (∀ start, (free_map_allocate bm n cnt).1 = some start →
        (∀ k, k < cnt → bm (start + k) = false)
        ∧ (∀ k, k < cnt → (free_map_allocate bm n cnt).2 (start + k) = true)
        ∧ (∀ s, s < start ∨ start + cnt ≤ s → (free_map_allocate bm n cnt).2 s = bm s))
    ∧ ((free_map_allocate bm n cnt).1 = none → (free_map_allocate bm n cnt).2 = bm)
    ∧ (∀ start start2,
        (free_map_allocate bm n cnt).1 = some start →
        (free_map_allocate (free_map_allocate bm n cnt).2 n cnt2).1 = some start2 →
        ∀ s, start ≤ s ∧ s < start + cnt → ¬(start2 ≤ s ∧ s < start2 + cnt2)) := by
  refine ⟨?_, ?_, ?_⟩
  · intro start h
    have hs := free_map_allocate_some_scan bm n cnt start h
    have hrun := scanFrom_some bm n cnt (n + 1) 0 start hs
    rw [free_map_allocate_eq_of_scan bm n cnt start hs]
    refine ⟨runFree_bits bm start cnt hrun.2, ?_, ?_⟩
    · intro k hk
      simp only
      rw [if_pos (by omega)]
    · intro s hsout
      simp only
      rw [if_neg (by omega)]
  · intro h
    rcases hs : scanFrom bm n cnt 0 (n + 1) with _ | s0
    · rw [free_map_allocate, hs]
    · rw [free_map_allocate, hs] at h
      simp at h
  · intro start start2 h1 h2 s hs1 hs2
    have hscan1 := free_map_allocate_some_scan bm n cnt start h1
    have hscan2 := free_map_allocate_some_scan (free_map_allocate bm n cnt).2 n cnt2 start2 h2
    have hrun2 := scanFrom_some (free_map_allocate bm n cnt).2 n cnt2 (n + 1) 0 start2 hscan2
    have hfree2 := runFree_bits (free_map_allocate bm n cnt).2 start2 cnt2 hrun2.2
    have halloc : (free_map_allocate bm n cnt).2 s = true := by
      rw [free_map_allocate_eq_of_scan bm n cnt start hscan1]
      simp only
      rw [if_pos hs1]
    have hfree : (free_map_allocate bm n cnt).2 s = false := by
      have hbit := hfree2 (s - start2) (by omega)
      have harr : start2 + (s - start2) = s := by omega
      rwa [harr] at hbit
    rw [halloc] at hfree
    simp at hfree

/-- Bitmap of a small 8-sector device with sector 0 already allocated,
for the C5 witness. -/
def bmW : Nat → Bool := fun s => s == 0

/-- C5 witness instance: on the 8-sector device with only sector 0
allocated, allocating a run of 2 returns sectors 1 and 2: both were free
before and both are marked allocated afterwards. -/
theorem free_map_allocate_spec_witness :
    (free_map_allocate bmW 8 2).1 = some 1
    ∧ bmW (1 + 0) = false
    ∧ (free_map_allocate bmW 8 2).2 (1 + 1) = true :=
  ⟨by decide,
   ((free_map_allocate_spec bmW 8 2 2).1 1 (by decide)).1 0 (by decide),
   ((free_map_allocate_spec bmW 8 2 2).1 1 (by decide)).2.1 1 (by decide)⟩

/-! ## C6: eviction never selects a pinned slot

cache.c is absent from the sources (cache.h survives with CACHE_SIZE and
the contract comments); the second-chance clock eviction scan is modelled
from the spec: scan slots in rotation, skip a pinned slot, give a slot
with a positive access counter a second chance by decrementing it, and
select the first slot with zero pin count and zero access counter.  A
scan that finds no selectable slot (every slot pinned) returns nothing,
which is the blocking condition: the miss waits until an unpin. -/

/-- Modelled from the spec: the per-slot metadata the eviction scan
reads: the pin (in-use) count and the capped access counter. -/
structure CacheSlot where
  pin : Nat
  access : Nat
deriving DecidableEq

/-- Default slot used out of range; it reads as pinned so that an
out-of-range probe is never selected. -/
def dSlot : CacheSlot := CacheSlot.mk 1 0

/-- Modelled from the spec: the clock scan over the slot table: position
`i` wraps modulo the table size; the fuel argument bounds the scan, and
running out of fuel models the blocking wait of a miss with every slot
pinned. -/
def clock_scan : List CacheSlot → Nat → Nat → Option (Nat × List CacheSlot)
  | _, _, 0 => none
  | slots, i, Nat.succ fuel =>
      let j := i % slots.length
      let s := slots.getD j dSlot
      if s.pin ≠ 0 then clock_scan slots (j + 1) fuel
      else if s.access ≠ 0 then
        clock_scan (slots.set j (CacheSlot.mk s.pin (s.access - 1))) (j + 1) fuel
      else some (j, slots)

theorem getD_set_access_pin :
    ∀ (slots : List CacheSlot) (jj j a : Nat),
      ((slots.set jj (CacheSlot.mk ((slots.getD jj dSlot)).pin a)).getD j dSlot).pin
        = ((slots.getD j dSlot)).pin := by
  intro slots
  induction slots with
  | nil => intro jj j a; simp [List.set]
  | cons e tl ih =>
      intro jj j a
      cases jj with
      | zero =>
          cases j with
          | zero => simp [List.set]
          | succ m => simp [List.set]
      | succ mj =>
          cases j with
          | zero => simp [List.set]
          | succ m => simpa [List.set] using ih mj m a

theorem clock_scan_some_pin :
    ∀ (fuel : Nat) (slots : List CacheSlot) (i j : Nat) (slots2 : List CacheSlot),
      clock_scan slots i fuel = some (j, slots2) →
      ((slots.getD j dSlot)).pin = 0 := by
  intro fuel
  induction fuel with
  | zero => intro slots i j slots2 h; simp [clock_scan] at h
  | succ f ih =>
      intro slots i j slots2 h
      simp only [clock_scan] at h
      by_cases h1 : (slots.getD (i % slots.length) dSlot).pin ≠ 0
      · rw [if_pos h1] at h
        exact ih slots (i % slots.length + 1) j slots2 h
      · rw [if_neg h1] at h
        by_cases h2 : (slots.getD (i % slots.length) dSlot).access ≠ 0
        · rw [if_pos h2] at h
          have := ih _ (i % slots.length + 1) j slots2 h
          rwa [getD_set_access_pin] at this
        · rw [if_neg h2] at h
          simp only [Option.some.injEq, Prod.mk.injEq] at h
          rw [← h.1]
          omega

theorem clock_scan_all_pinned :
    ∀ (fuel : Nat) (slots : List CacheSlot) (i : Nat),
      (∀ s ∈ slots, s.pin ≠ 0) → clock_scan slots i fuel = none := by
  intro fuel
  induction fuel with
  | zero => intro slots i _; rfl
  | succ f ih =>
      intro slots i hpin
      have hp : (slots.getD (i % slots.length) dSlot).pin ≠ 0 := by
        by_cases hl : i % slots.length < slots.length
        · apply hpin
          rw [List.getD_eq_getElem _ _ hl]
          exact List.getElem_mem hl
        · rw [List.getD_eq_default _ _ (by omega)]
          simp [dSlot]
      simp only [clock_scan]
      rw [if_pos hp]
      exact ih slots (i % slots.length + 1) hpin

/-- C6: the eviction scan never selects a slot whose pin count is greater
than zero: whenever it returns a victim, that slot's pin count is 0; and
when every slot is pinned it selects nothing however long it scans, which
is the blocking condition: the miss waits for an unpin instead of
evicting a pinned slot. -/
theorem cache_evict_pin_safe (slots : List CacheSlot) (i fuel : Nat) :
    (∀ j slots2, clock_scan slots i fuel = some (j, slots2) →
        ((slots.getD j dSlot)).pin = 0)
    ∧ ((∀ s ∈ slots, s.pin ≠ 0) → clock_scan slots i fuel = none) :=
  ⟨fun j slots2 h => clock_scan_some_pin fuel slots i j slots2 h,
   fun h => clock_scan_all_pinned fuel slots i h⟩

/-- C6 witness instance: with both slots of a two-slot table pinned, the
scan returns nothing no matter the fuel. -/
theorem cache_evict_pin_safe_witness :
    clock_scan [CacheSlot.mk 1 0, CacheSlot.mk 2 3] 0 10 = none :=
  (cache_evict_pin_safe [CacheSlot.mk 1 0, CacheSlot.mk 2 3] 0 10).2 (by decide)

/-! ## C9: bounded read-ahead queue

cache.c is absent from the sources; cache.h declares cache_ra_request
and RA_QUEUE_SIZE = CACHE_SIZE with the comment that when the queue grows
past the bound, old requests are discarded in favour of new ones.  The
queue is modelled from the spec: a FIFO with the front the oldest entry,
enqueue at the back, dropping the oldest when full. -/

/-- Modelled from the spec: cache_ra_request enqueues a read-ahead hint
at the back of the queue; when the queue is already at RA_QUEUE_SIZE the
oldest entry (the front) is dropped in favour of the newest. -/
def cache_ra_request (q : List Nat) (s : Nat) : List Nat :=
  if q.length < RA_QUEUE_SIZE then q ++ [s] else q.tail ++ [s]

/-- C9: starting from any queue within the bound, an enqueue keeps the
queue within RA_QUEUE_SIZE = CACHE_SIZE = 64 entries; when the queue is
full the oldest entry is dropped and the rest retained in order; and the
newest request is always retained at the back. -/
theorem cache_ra_request_bounded (q : List Nat) (s : Nat)
    (h : q.length ≤ RA_QUEUE_SIZE) :
    (cache_ra_request q s).length ≤ RA_QUEUE_SIZE
    ∧ (q.length = RA_QUEUE_SIZE → cache_ra_request q s = q.tail ++ [s])
    ∧ (q.length < RA_QUEUE_SIZE → cache_ra_request q s = q ++ [s])
    ∧ (cache_ra_request q s).getLast? = some s := by
  refine ⟨?_, ?_, ?_, ?_⟩
  · have hRA : RA_QUEUE_SIZE = 64 := by decide
    rw [cache_ra_request]
    by_cases hlt : q.length < RA_QUEUE_SIZE
    · rw [if_pos hlt]
      simp only [List.length_append, List.length_cons, List.length_nil]
      omega
    · rw [if_neg hlt]
      simp only [List.length_append, List.length_tail, List.length_cons,
        List.length_nil]
      omega
  · intro hfull
    rw [cache_ra_request, if_neg (by omega)]
  · intro hlt
    rw [cache_ra_request, if_pos hlt]
  · rw [cache_ra_request]
    by_cases hlt : q.length < RA_QUEUE_SIZE
    · rw [if_pos hlt, List.getLast?_concat]
    · rw [if_neg hlt, List.getLast?_concat]

/-- C9 witness instance: enqueueing into a full 64-entry queue keeps the
length at 64 and drops the oldest entry. -/
theorem cache_ra_request_bounded_witness :
    (List.replicate RA_QUEUE_SIZE 7).length ≤ RA_QUEUE_SIZE
    ∧ (cache_ra_request (List.replicate RA_QUEUE_SIZE 7) 9).length ≤ RA_QUEUE_SIZE
    ∧ cache_ra_request (List.replicate RA_QUEUE_SIZE 7) 9
        = (List.replicate RA_QUEUE_SIZE 7).tail ++ [9] :=
  ⟨by decide,
   (cache_ra_request_bounded (List.replicate RA_QUEUE_SIZE 7) 9 (by decide)).1,
   (cache_ra_request_bounded (List.replicate RA_QUEUE_SIZE 7) 9 (by decide)).2.1
     (by decide)⟩

/-! ## C8: directory add / remove / lookup

directory.c is absent from the sources; directory.h declares dir_entry
(in_use flag, is_dir flag, inode sector, NAME_MAX-bounded name) and a
directory of DIR_ENTRY_MAX entries.  The operations are modelled from
the spec: lookup linear-scans the in-use entries for an exact name
match; add fails when the name is already present or no slot is free and
otherwise fills the first not-in-use slot; remove marks the matching
slot not-in-use without compaction. -/

/-- The dir_entry record of directory.h: in-use flag, directory flag,
inode sector number, and the (NAME_MAX-bounded) name, as a byte list. -/
structure dir_entry where
  in_use : Bool
  is_dir : Bool
  inode_sector : Nat
  name : List Nat
deriving DecidableEq

/-- Modelled from the spec: dir_lookup linear-scans the entries for an
in-use entry with exactly the requested name and yields its sector. -/
def dir_lookup : List dir_entry → List Nat → Option Nat
  | [], _ => none
  | e :: tl, n =>
      if e.in_use && e.name == n then some e.inode_sector else dir_lookup tl n

/-- Modelled from the spec: the slot-filling scan of dir_add: overwrite
the first not-in-use slot with the new entry, failing when every slot is
in use. -/
def dir_fill : List dir_entry → List Nat → Nat → Bool → Option (List dir_entry)
  | [], _, _, _ => none
  | e :: tl, n, sector, isdir =>
      if !e.in_use then some (dir_entry.mk true isdir sector n :: tl)
      else (dir_fill tl n sector isdir).map (fun tl2 => e :: tl2)

/-- Modelled from the spec: dir_add fails when the name is already
present among the in-use entries, otherwise fills the first free slot. -/
def dir_add (d : List dir_entry) (n : List Nat) (sector : Nat) (isdir : Bool) :
    Option (List dir_entry) :=
  if d.any (fun e => e.in_use && e.name == n) then none
  else dir_fill d n sector isdir

/-- Modelled from the spec: dir_remove marks the matching in-use slot
not-in-use (no compaction), failing when the name is absent. -/
def dir_remove : List dir_entry → List Nat → Option (List dir_entry)
  | [], _ => none
  | e :: tl, n =>
      if e.in_use && e.name == n then
        some (dir_entry.mk false e.is_dir e.inode_sector e.name :: tl)
      else (dir_remove tl n).map (fun tl2 => e :: tl2)

theorem dir_fill_none_iff (n : List Nat) (sector : Nat) (isdir : Bool) :
    ∀ (d : List dir_entry),
      dir_fill d n sector isdir = none ↔ d.all (fun e => e.in_use) = true := by
  intro d
  induction d with
  | nil => simp [dir_fill]
  | cons e tl ih =>
      rw [dir_fill]
      by_cases he : e.in_use
      · rw [if_neg (by simp [he])]
        simp [he, Option.map_eq_none, ih]
      · rw [if_pos (by simp [he])]
        simp [he]

theorem dir_fill_eq_set (n : List Nat) (sector : Nat) (isdir : Bool) :
    ∀ (d d2 : List dir_entry), dir_fill d n sector isdir = some d2 →
      d2 = d.set (d.findIdx (fun e => !e.in_use)) (dir_entry.mk true isdir sector n) := by
  intro d
  induction d with
  | nil => intro d2 h; simp [dir_fill] at h
  | cons e tl ih =>
      intro d2 h
      rw [dir_fill] at h
      by_cases he : e.in_use
      · rw [if_neg (by simp [he])] at h
        rcases hf : dir_fill tl n sector isdir with _ | tl2
        · rw [hf] at h
          simp at h
        · rw [hf] at h
          simp only [Option.map_some', Option.some.injEq] at h
          subst h
          rw [List.findIdx_cons]
          simp only [he, Bool.not_true, cond_false]
          rw [List.set_cons_succ]
          rw [← ih tl2 hf]
      · rw [if_pos (by simp [he])] at h
        simp only [Option.some.injEq] at h
        subst h
        rw [List.findIdx_cons]
        simp [he]

theorem dir_lookup_fill (n : List Nat) (sector : Nat) (isdir : Bool) :
    ∀ (d d2 : List dir_entry),
      (∀ e ∈ d, (e.in_use && e.name == n) = false) →
      dir_fill d n sector isdir = some d2 →
      dir_lookup d2 n = some sector := by
  intro d
  induction d with
  | nil => intro d2 _ h; simp [dir_fill] at h
  | cons e tl ih =>
      intro d2 hno h
      rw [dir_fill] at h
      by_cases he : e.in_use
      · rw [if_neg (by simp [he])] at h
        rcases hf : dir_fill tl n sector isdir with _ | tl2
        · rw [hf] at h
          simp at h
        · rw [hf] at h
          simp only [Option.map_some', Option.some.injEq] at h
          subst h
          rw [dir_lookup, if_neg (by simp [hno e (by simp)])]
          exact ih tl2 (fun x hx => hno x (by simp [hx])) hf
      · rw [if_pos (by simp [he])] at h
        simp only [Option.some.injEq] at h
        subst h
        rw [dir_lookup]
        simp

theorem dir_lookup_none_of_no_match (n : List Nat) :
    ∀ (d : List dir_entry),
      (∀ e ∈ d, (e.in_use && e.name == n) = false) →
      dir_lookup d n = none := by
  intro d
  induction d with
  | nil => intro _; rfl
  | cons e tl ih =>
      intro hno
      rw [dir_lookup, if_neg (by simp [hno e (by simp)])]
      exact ih (fun x hx => hno x (by simp [hx]))

theorem dir_remove_lookup_none (n : List Nat) :
    ∀ (d d2 : List dir_entry),
      d.countP (fun e => e.in_use && e.name == n) ≤ 1 →
      dir_remove d n = some d2 →
      dir_lookup d2 n = none := by
  intro d
  induction d with
  | nil => intro d2 _ h; simp [dir_remove] at h
  | cons e tl ih =>
      intro d2 huniq h
      rw [dir_remove] at h
      by_cases he : (e.in_use && e.name == n) = true
      · rw [if_pos he] at h
        simp only [Option.some.injEq] at h
        subst h
        rw [dir_lookup, if_neg (by simp)]
        have hcnt : tl.countP (fun e => e.in_use && e.name == n) = 0 := by
          rw [List.countP_cons, if_pos he] at huniq
          omega
        exact dir_lookup_none_of_no_match n tl
          (fun e he => by simpa using (List.countP_eq_zero.mp hcnt) e he)
      · rw [if_neg he] at h
        rcases hr : dir_remove tl n with _ | tl2
        · rw [hr] at h
          simp at h
        · rw [hr] at h
          simp only [Option.map_some', Option.some.injEq] at h
          subst h
          rw [dir_lookup, if_neg (by simpa using he)]
          apply ih tl2 _ hr
          rw [List.countP_cons, if_neg he] at huniq
          omega

/-- C8: dir_add on a DIR_ENTRY_MAX = 64 entry directory, with a name of
at most NAME_MAX = 14 bytes, fails exactly when the name is already
present among the in-use entries or every slot is in use; on success it
fills the first not-in-use slot with the name and sector, after which
lookup finds the sector; and after a successful dir_remove of a name
(unique among the in-use entries, the directory invariant), dir_lookup
for that name fails until a later dir_add reinserts it, after which
lookup finds the newly added sector. -/
theorem dir_add_remove_spec (d : List dir_entry) (n : List Nat) (sector : Nat)
    (isdir : Bool)
    (_hname : n.length ≤ NAME_MAX) (_hslots : d.length = DIR_ENTRY_MAX)
    (huniq : d.countP (fun e => e.in_use && e.name == n) ≤ 1) :
    (dir_add d n sector isdir = none ↔
        d.any (fun e => e.in_use && e.name == n) = true
        ∨ d.all (fun e => e.in_use) = true)
    ∧ (∀ d2, dir_add d n sector isdir = some d2 →
        d2 = d.set (d.findIdx (fun e => !e.in_use)) (dir_entry.mk true isdir sector n)
        ∧ dir_lookup d2 n = some sector)
    ∧ (∀ d2, dir_remove d n = some d2 →
        dir_lookup d2 n = none
        ∧ ∀ sector2 isdir2 d3, dir_add d2 n sector2 isdir2 = some d3 →
            dir_lookup d3 n = some sector2) := by
  refine ⟨?_, ?_, ?_⟩
  · rw [dir_add]
    by_cases hany : d.any (fun e => e.in_use && e.name == n) = true
    · simp [hany]
    · rw [if_neg hany]
      rw [dir_fill_none_iff]
      simp [hany]
  · intro d2 h
    rw [dir_add] at h
    by_cases hany : d.any (fun e => e.in_use && e.name == n) = true
    · rw [if_pos hany] at h
      simp at h
    · rw [if_neg hany] at h
      have hno : ∀ e ∈ d, (e.in_use && e.name == n) = false := by
        intro e he
        by_contra hc
        exact hany (List.any_eq_true.mpr ⟨e, he, by simpa using hc⟩)
      exact ⟨dir_fill_eq_set n sector isdir d d2 h,
             dir_lookup_fill n sector isdir d d2 hno h⟩
  · intro d2 h
    refine ⟨dir_remove_lookup_none n d d2 huniq h, ?_⟩
    intro sector2 isdir2 d3 hadd
    rw [dir_add] at hadd
    by_cases hany : d2.any (fun e => e.in_use && e.name == n) = true
    · rw [if_pos hany] at hadd
      simp at hadd
    · rw [if_neg hany] at hadd
      have hno : ∀ e ∈ d2, (e.in_use && e.name == n) = false := by
        intro e he
        by_contra hc
        exact hany (List.any_eq_true.mpr ⟨e, he, by simpa using hc⟩)
      exact dir_lookup_fill n sector2 isdir2 d2 d3 hno hadd

/-- Empty 64-slot directory for the C8 witness. -/
def dirW : List dir_entry := List.replicate DIR_ENTRY_MAX (dir_entry.mk false false 0 [])

/-- Name used by the C8 witness. -/
def nameW : List Nat := [1, 2]

/-- C8 witness instance: adding a 2-byte name to the empty 64-slot
directory fills slot 0, and lookup then finds the added sector. -/
theorem dir_add_remove_spec_witness :
    dirW.countP (fun e => e.in_use && e.name == nameW) ≤ 1
    ∧ dir_lookup (dirW.set 0 (dir_entry.mk true false 5 nameW)) nameW = some 5 :=
  ⟨by decide,
   ((dir_add_remove_spec dirW nameW 5 false (by decide) (by decide) (by decide)).2.1
       (dirW.set 0 (dir_entry.mk true false 5 nameW)) (by decide)).2⟩
